import Mathlib

/-!
Shallow embedding of the AIDoctors data pipeline
(`src/data-pipelines/pipeline.py`) and proofs of the specification
claims about it.  Strings are modelled as `List Char` (`Str`); pandas
timestamps as nanosecond `Int` values with `Option` for `NaT`; numeric
columns as `Option ℚ` with `none` for `NaN`.
-/

namespace AIDoctors

/-- Free-text names, modelled as lists of characters. -/
abbrev Str := List Char

/-- Model of Python's `\s` character class on the ASCII range
(space, tab, newline, vertical tab, form feed, carriage return). -/
def pyIsSpace (c : Char) : Bool :=
  c = ' ' || c = '\t' || c = '\n' || c = '\x0b' || c = '\x0c' || c = '\r'

/-- Negation of `pyIsSpace`, used for tokenisation. -/
def notWs (c : Char) : Bool := !(pyIsSpace c)

/-- Model of Python's `str.lower` on the ASCII range: uppercase
letters are shifted into lowercase, all other characters unchanged. -/
def pyLower (c : Char) : Char :=
  if 'A' ≤ c && c ≤ 'Z' then Char.ofNat (c.toNat + 32) else c

/-- Lowercase ASCII letter test, `[a-z]`. -/
def isLowerAZ (c : Char) : Bool := 'a' ≤ c && c ≤ 'z'

/-- ASCII digit test, `[0-9]`. -/
def isDigit09 (c : Char) : Bool := '0' ≤ c && c ≤ '9'

/-- The character class `[a-z0-9\s\-\+]` kept by `normalize_name`'s
second substitution; everything else is replaced by a space. -/
def keepClass (c : Char) : Bool :=
  isLowerAZ c || isDigit09 c || pyIsSpace c || c = '-' || c = '+'

/-- The substitution `re.sub(r"[^a-z0-9\s\-\+]", " ", s)`. -/
def classSub (s : Str) : Str := s.map (fun c => if keepClass c then c else ' ')

/-- Scan for the closing `]` of a lazy `\[.*?\]` match: returns the
suffix after the first `]`, or `none` if a newline (which `.` does not
match) or the end of the string comes first. -/
def dropToClose : Str → Option Str
  | [] => none
  | c :: cs => if c = ']' then some cs else if c = '\n' then none else dropToClose cs

theorem dropToClose_length : ∀ (l : Str) (r : Str), dropToClose l = some r → r.length < l.length := by
  intro l
  induction l with
  | nil => intro r h; simp [dropToClose] at h
  | cons c cs ih =>
    intro r h
    simp only [dropToClose] at h
    by_cases hc : c = ']'
    · simp [hc] at h
      subst h; simp
    · by_cases hn : c = '\n'
      · simp [hc, hn] at h
      · simp [hc, hn] at h
        have := ih r h
        simp; omega

/-- The substitution `re.sub(r"\[.*?\]", "", s)`: each leftmost,
shortest bracketed run (with no newline inside) is deleted; an
unmatched `[` is kept and scanning resumes after it. -/
def removeBr : Str → Str
  | [] => []
  | c :: cs =>
    if c = '[' then
      match h : dropToClose cs with
      | some rest => removeBr rest
      | none => c :: removeBr cs
    else c :: removeBr cs
termination_by l => l.length
decreasing_by
  · have := dropToClose_length cs rest h
    simp; omega
  · simp
  · simp

theorem length_dropWhile_le (p : Char → Bool) : ∀ l : Str, (l.dropWhile p).length ≤ l.length := by
  intro l
  induction l with
  | nil => simp [List.dropWhile]
  | cons c cs ih =>
    simp only [List.dropWhile]
    by_cases h : p c
    · simp [h]; omega
    · simp [h]

/-- Maximal whitespace-free tokens of a string, in order.  This is the
token decomposition underlying `re.sub(r"\s+", " ", s).strip()`. -/
def wsSplit : Str → List Str
  | [] => []
  | c :: cs =>
    if pyIsSpace c then wsSplit cs
    else (c :: cs.takeWhile notWs) :: wsSplit (cs.dropWhile notWs)
termination_by l => l.length
decreasing_by
  · simp
  · have := length_dropWhile_le notWs cs
    simp; omega

/-- Join tokens with single spaces (the effect of collapsing
whitespace runs to one space and stripping the ends). -/
def joinTokens : List Str → Str
  | [] => []
  | [t] => t
  | t :: ts => t ++ ' ' :: joinTokens ts

/-- `re.sub(r"\s+", " ", s).strip()`, as tokenise-and-rejoin. -/
def collapseWs (s : Str) : Str := joinTokens (wsSplit s)

/-- The name normaliser of `pipeline.py` (`normalize_name`) on an
actual string: lowercase, delete bracketed annotations, replace
characters outside `[a-z0-9\s\-\+]` by spaces, collapse whitespace
runs and trim. -/
def normalize_name (s : Str) : Str := collapseWs (classSub (removeBr (s.map pyLower)))

/-- `normalize_name` including the `pd.isna` guard: a null / NaN
input (here `none`) yields the empty string. -/
def normalize_name_opt : Option Str → Str
  | none => []
  | some s => normalize_name s

/-! ### Unfolding lemmas for the well-founded definitions -/

theorem removeBr_nil : removeBr [] = [] := by rw [removeBr]

theorem removeBr_cons_not {c : Char} (cs : Str) (h : ¬ c = '[') :
    removeBr (c :: cs) = c :: removeBr cs := by
  rw [removeBr]; simp [h]

theorem removeBr_cons_close {c : Char} {cs rest : Str} (h : c = '[')
    (h2 : dropToClose cs = some rest) : removeBr (c :: cs) = removeBr rest := by
  rw [removeBr, if_pos h]
  split
  · rename_i r heq
    rw [heq] at h2
    injection h2 with h3
    rw [h3]
  · rename_i heq
    rw [heq] at h2
    exact absurd h2 (by simp)

theorem removeBr_cons_noclose {c : Char} {cs : Str} (h : c = '[')
    (h2 : dropToClose cs = none) : removeBr (c :: cs) = c :: removeBr cs := by
  rw [removeBr, if_pos h]
  split
  · rename_i r heq
    rw [heq] at h2
    exact absurd h2 (by simp)
  · rfl

theorem wsSplit_nil : wsSplit [] = [] := by rw [wsSplit]

theorem wsSplit_cons (c : Char) (cs : Str) :
    wsSplit (c :: cs) =
      if pyIsSpace c then wsSplit cs
      else (c :: cs.takeWhile notWs) :: wsSplit (cs.dropWhile notWs) := by
  rw [wsSplit]

/-! ### takeWhile / dropWhile helpers -/

theorem takeWhile_all {p : Char → Bool} {l : Str} (h : ∀ c ∈ l, p c = true) :
    l.takeWhile p = l := by
  simp
  exact h

theorem dropWhile_all {p : Char → Bool} {l : Str} (h : ∀ c ∈ l, p c = true) :
    l.dropWhile p = [] := by
  simp
  exact h

theorem takeWhile_append_stop {p : Char → Bool} {y : Char} (ys : Str) :
    ∀ {xs : Str}, (∀ c ∈ xs, p c = true) → p y = false →
      (xs ++ y :: ys).takeWhile p = xs := by
  intro xs
  induction xs with
  | nil => intro _ hy; simp [List.takeWhile, hy]
  | cons c cs ih =>
    intro h hy
    simp only [List.cons_append, List.takeWhile]
    rw [h c (by simp)]
    simp
    exact ih (fun d hd => h d (by simp [hd])) hy

theorem dropWhile_append_stop {p : Char → Bool} {y : Char} (ys : Str) :
    ∀ {xs : Str}, (∀ c ∈ xs, p c = true) → p y = false →
      (xs ++ y :: ys).dropWhile p = y :: ys := by
  intro xs
  induction xs with
  | nil => intro _ hy; simp [List.dropWhile, hy]
  | cons c cs ih =>
    intro h hy
    simp only [List.cons_append, List.dropWhile]
    rw [h c (by simp)]
    simp
    exact ih (fun d hd => h d (by simp [hd])) hy

theorem mem_takeWhile {p : Char → Bool} :
    ∀ {l : Str} {c : Char}, c ∈ l.takeWhile p → c ∈ l ∧ p c = true := by
  intro l
  induction l with
  | nil => intro c h; simp [List.takeWhile] at h
  | cons d ds ih =>
    intro c h
    simp only [List.takeWhile] at h
    by_cases hd : p d
    · rw [hd] at h
      simp at h
      rcases h with h | h
      · subst h; exact ⟨by simp, hd⟩
      · rcases ih h with ⟨h1, h2⟩
        exact ⟨by simp [h1], h2⟩
    · simp [hd] at h

/-! ### Tokens produced by `wsSplit` are nonempty, whitespace-free
substrings of the input -/

theorem wsSplit_tokens_aux :
    ∀ (n : Nat) (s : Str), s.length ≤ n →
      ∀ t ∈ wsSplit s, t ≠ [] ∧ ∀ c ∈ t, notWs c = true ∧ c ∈ s := by
  intro n
  induction n with
  | zero =>
    intro s hs t ht
    have : s = [] := by cases s <;> simp_all
    subst this
    rw [wsSplit_nil] at ht
    simp at ht
  | succ n ih =>
    intro s hs t ht
    cases s with
    | nil => rw [wsSplit_nil] at ht; simp at ht
    | cons c cs =>
      rw [wsSplit_cons] at ht
      by_cases hc : pyIsSpace c
      · rw [if_pos hc] at ht
        have hlen : cs.length ≤ n := by simp at hs; omega
        rcases ih cs hlen t ht with ⟨h1, h2⟩
        exact ⟨h1, fun d hd => ⟨(h2 d hd).1, by simp [(h2 d hd).2]⟩⟩
      · rw [if_neg hc] at ht
        simp only [List.mem_cons] at ht
        rcases ht with ht | ht
        · subst ht
          constructor
          · simp
          · intro d hd
            simp only [List.mem_cons] at hd
            rcases hd with hd | hd
            · subst hd
              exact ⟨by simp [notWs, hc], by simp⟩
            · rcases mem_takeWhile hd with ⟨h1, h2⟩
              exact ⟨h2, by simp [h1]⟩
        · have hlen : (cs.dropWhile notWs).length ≤ n := by
            have := length_dropWhile_le notWs cs
            simp at hs; omega
          rcases ih (cs.dropWhile notWs) hlen t ht with ⟨h1, h2⟩
          refine ⟨h1, fun d hd => ⟨(h2 d hd).1, ?_⟩⟩
          have : d ∈ cs.dropWhile notWs := (h2 d hd).2
          have : d ∈ cs := List.dropWhile_sublist notWs |>.mem this
          simp [this]

theorem wsSplit_tokens {s : Str} {t : Str} (ht : t ∈ wsSplit s) :
    t ≠ [] ∧ ∀ c ∈ t, notWs c = true ∧ c ∈ s :=
  wsSplit_tokens_aux s.length s (le_refl _) t ht

/-! ### Rejoining the tokens recovers the token list -/

theorem joinTokens_cons_cons (t u : Str) (ts : List Str) :
    joinTokens (t :: u :: ts) = t ++ ' ' :: joinTokens (u :: ts) := rfl

theorem wsSplit_joinTokens :
    ∀ ts : List Str, (∀ t ∈ ts, t ≠ [] ∧ ∀ c ∈ t, notWs c = true) →
      wsSplit (joinTokens ts) = ts := by
  intro ts
  induction ts with
  | nil => intro _; exact wsSplit_nil
  | cons t ts ih =>
    intro h
    rcases h t (by simp) with ⟨hne, hchars⟩
    cases t with
    | nil => exact absurd rfl hne
    | cons c t' =>
      have hc : pyIsSpace c = false := by
        have := hchars c (by simp)
        simp [notWs] at this
        exact this
      cases ts with
      | nil =>
        show wsSplit (c :: t') = [c :: t']
        rw [wsSplit_cons, if_neg (by simp [hc])]
        rw [takeWhile_all (fun d hd => hchars d (by simp [hd]))]
        rw [dropWhile_all (fun d hd => hchars d (by simp [hd]))]
        rw [wsSplit_nil]
      | cons u us =>
        rw [joinTokens_cons_cons]
        show wsSplit (c :: (t' ++ ' ' :: joinTokens (u :: us))) = (c :: t') :: u :: us
        rw [wsSplit_cons, if_neg (by simp [hc])]
        rw [takeWhile_append_stop _ (fun d hd => hchars d (by simp [hd])) (by simp [notWs, pyIsSpace])]
        rw [dropWhile_append_stop _ (fun d hd => hchars d (by simp [hd])) (by simp [notWs, pyIsSpace])]
        rw [wsSplit_cons, if_pos (by simp [pyIsSpace])]
        rw [ih (fun v hv => h v (by simp [hv]))]

/-- The characters of `collapseWs s` are the space separator or
characters of the tokens of `s` (hence characters of `s`). -/
theorem mem_joinTokens :
    ∀ (ts : List Str) (c : Char), c ∈ joinTokens ts → c = ' ' ∨ ∃ t ∈ ts, c ∈ t := by
  intro ts
  induction ts with
  | nil => intro c h; simp [joinTokens] at h
  | cons t ts ih =>
    intro c h
    cases ts with
    | nil =>
      right; exact ⟨t, by simp, h⟩
    | cons u us =>
      rw [joinTokens_cons_cons] at h
      simp only [List.mem_append, List.mem_cons] at h
      rcases h with h | h | h
      · right; exact ⟨t, by simp, h⟩
      · left; exact h
      · rcases ih c h with h2 | ⟨v, hv, hc⟩
        · left; exact h2
        · right; exact ⟨v, by simp [hv], hc⟩

theorem mem_collapseWs {s : Str} {c : Char} (h : c ∈ collapseWs s) :
    c = ' ' ∨ c ∈ s := by
  rcases mem_joinTokens _ c h with h2 | ⟨t, ht, hc⟩
  · left; exact h2
  · right; exact ((wsSplit_tokens ht).2 c hc).2

/-! ### Output shape predicates (claim C10's alphabet invariant) -/

/-- Characters allowed in a normalised name: lowercase ASCII letters,
digits, the space, the hyphen and the plus sign. -/
def allowedOut (c : Char) : Bool :=
  isLowerAZ c || isDigit09 c || c = ' ' || c = '-' || c = '+'

/-- No two consecutive space characters. -/
def noDoubleSpace : Str → Bool
  | c :: d :: rest => !(c = ' ' && d = ' ') && noDoubleSpace (d :: rest)
  | _ => true

/-- The first character, if any, is not a space. -/
def headNotSpace : Str → Bool
  | [] => true
  | c :: _ => !(c = ' ')

/-- The last character, if any, is not a space. -/
def lastNotSpace : Str → Bool
  | [] => true
  | [c] => !(c = ' ')
  | _ :: c :: rest => lastNotSpace (c :: rest)

theorem noDoubleSpace_cons (c : Char) (l : Str) :
    noDoubleSpace (c :: l) =
      ((match l with
        | [] => true
        | d :: _ => !(c = ' ' && d = ' ')) && noDoubleSpace l) := by
  cases l <;> simp [noDoubleSpace]

theorem lastNotSpace_cons (c : Char) (l : Str) :
    lastNotSpace (c :: l) =
      (match l with
       | [] => !(c = ' ')
       | d :: rest => lastNotSpace (d :: rest)) := by
  cases l <;> simp [lastNotSpace]

theorem noDoubleSpace_all {t : Str} (h : ∀ c ∈ t, ¬ c = ' ') :
    noDoubleSpace t = true := by
  induction t with
  | nil => rfl
  | cons c t' ih =>
    rw [noDoubleSpace_cons]
    have htail := ih (fun d hd => h d (by simp [hd]))
    cases t' with
    | nil => simp [noDoubleSpace]
    | cons d ds => simp [h c (by simp), htail]

theorem noDoubleSpace_token_sep {rest : Str} :
    ∀ t : Str, (∀ c ∈ t, ¬ c = ' ') → noDoubleSpace rest = true →
      headNotSpace rest = true → noDoubleSpace (t ++ ' ' :: rest) = true := by
  intro t
  induction t with
  | nil =>
    intro _ hr hh
    rw [List.nil_append, noDoubleSpace_cons]
    cases rest with
    | nil => simp [noDoubleSpace]
    | cons d ds =>
      simp only [headNotSpace] at hh
      simp [hr]
      simp at hh
      exact hh
  | cons c t' ih =>
    intro h hr hh
    rw [List.cons_append, noDoubleSpace_cons]
    have hc : ¬ c = ' ' := h c (by simp)
    have htail := ih (fun d hd => h d (by simp [hd])) hr hh
    cases t' with
    | nil =>
      simp [hc]
      simpa using htail
    | cons d ds =>
      simp only [List.cons_append]
      simp [hc]
      rw [List.cons_append] at htail
      exact htail

theorem headNotSpace_append_token {t rest : Str} (hne : t ≠ [])
    (h : ∀ c ∈ t, ¬ c = ' ') : headNotSpace (t ++ rest) = true := by
  cases t with
  | nil => exact absurd rfl hne
  | cons c t' => simp [headNotSpace, h c (by simp)]

theorem lastNotSpace_append {ys : Str} (hne : ys ≠ []) :
    ∀ xs : Str, lastNotSpace (xs ++ ys) = lastNotSpace ys := by
  intro xs
  induction xs with
  | nil => simp
  | cons c xs ih =>
    rw [List.cons_append, lastNotSpace_cons]
    cases h : xs ++ ys with
    | nil =>
      rcases List.append_eq_nil.mp h with ⟨_, h2⟩
      exact absurd h2 hne
    | cons d ds =>
      show lastNotSpace (d :: ds) = lastNotSpace ys
      rw [← h]
      exact ih

theorem lastNotSpace_all {t : Str} (h : ∀ c ∈ t, ¬ c = ' ') :
    lastNotSpace t = true := by
  induction t with
  | nil => rfl
  | cons c t' ih =>
    rw [lastNotSpace_cons]
    cases t' with
    | nil => simp [h c (by simp)]
    | cons d ds => exact ih (fun e he => h e (by simp [he]))

/-- Shape of a rejoined token list: if every token is nonempty and
space-free, the result has no leading/trailing space and no double
space. -/
theorem joinTokens_shape :
    ∀ ts : List Str, (∀ t ∈ ts, t ≠ [] ∧ ∀ c ∈ t, ¬ c = ' ') →
      noDoubleSpace (joinTokens ts) = true ∧
      headNotSpace (joinTokens ts) = true ∧
      lastNotSpace (joinTokens ts) = true := by
  intro ts
  induction ts with
  | nil => intro _; exact ⟨rfl, rfl, rfl⟩
  | cons t ts ih =>
    intro h
    rcases h t (by simp) with ⟨hne, hsp⟩
    cases ts with
    | nil =>
      refine ⟨noDoubleSpace_all hsp, ?_, lastNotSpace_all hsp⟩
      cases t with
      | nil => exact absurd rfl hne
      | cons c t' => simp [headNotSpace, joinTokens, hsp c (by simp)]
    | cons u us =>
      rcases ih (fun v hv => h v (by simp [hv])) with ⟨h1, h2, h3⟩
      rw [joinTokens_cons_cons]
      refine ⟨?_, ?_, ?_⟩
      · exact noDoubleSpace_token_sep t hsp h1 h2
      · exact headNotSpace_append_token hne hsp
      · rw [lastNotSpace_append (by simp) t, lastNotSpace_cons]
        cases hj : joinTokens (u :: us) with
        | nil =>
          rcases h u (by simp) with ⟨hune, _⟩
          cases u with
          | nil => exact absurd rfl hune
          | cons a as =>
            cases us with
            | nil => simp [joinTokens] at hj
            | cons v vs => rw [joinTokens_cons_cons] at hj; simp at hj
        | cons d ds =>
          show lastNotSpace (d :: ds) = true
          rw [← hj]
          exact h3

/-! ### Character-class facts and identity of the passes on
already-normalised strings -/

theorem keepClass_space : keepClass ' ' = true := by decide

theorem mem_classSub {s : Str} {c : Char} (h : c ∈ classSub s) : keepClass c = true := by
  rcases List.mem_map.mp h with ⟨d, _, hd⟩
  by_cases hk : keepClass d
  · rw [if_pos hk] at hd; rw [← hd]; exact hk
  · rw [if_neg hk] at hd; rw [← hd]; exact keepClass_space

theorem pyLower_keep {c : Char} (h : keepClass c = true) : pyLower c = c := by
  unfold pyLower
  rw [if_neg]
  intro hup
  simp only [Bool.and_eq_true, decide_eq_true_eq] at hup
  rcases hup with ⟨h1, h2⟩
  simp only [keepClass, isLowerAZ, isDigit09, pyIsSpace, Bool.or_eq_true, Bool.and_eq_true,
    decide_eq_true_eq] at h
  rcases h with (((⟨ha, _⟩ | ⟨_, hb⟩) | hs) | hc) | hc
  · exact absurd (le_trans ha h2) (by decide)
  · exact absurd (le_trans h1 hb) (by decide)
  · rcases hs with ((((hs | hs) | hs) | hs) | hs) | hs <;> (subst hs; revert h1 h2; decide)
  · subst hc; revert h1 h2; decide
  · subst hc; revert h1 h2; decide

theorem keep_ne_bracket {c : Char} (h : keepClass c = true) : ¬ c = '[' := by
  intro hc
  subst hc
  revert h
  decide

theorem keep_notWs_allowed {c : Char} (h : keepClass c = true) (hw : notWs c = true) :
    allowedOut c = true := by
  simp only [keepClass, Bool.or_eq_true] at h
  simp only [notWs, Bool.not_eq_true'] at hw
  simp only [allowedOut, Bool.or_eq_true]
  rcases h with (((h | h) | h) | h) | h
  · exact Or.inl (Or.inl (Or.inl (Or.inl h)))
  · exact Or.inl (Or.inl (Or.inl (Or.inr h)))
  · rw [h] at hw; simp at hw
  · exact Or.inl (Or.inr h)
  · exact Or.inr h

theorem notWs_ne_space {c : Char} (hw : notWs c = true) : ¬ c = ' ' := by
  intro hc
  subst hc
  revert hw
  decide

theorem map_pyLower_keep {s : Str} (h : ∀ c ∈ s, keepClass c = true) :
    s.map pyLower = s := by
  induction s with
  | nil => rfl
  | cons c cs ih =>
    simp only [List.map_cons]
    rw [pyLower_keep (h c (by simp)), ih (fun d hd => h d (by simp [hd]))]

theorem removeBr_keep {s : Str} (h : ∀ c ∈ s, keepClass c = true) :
    removeBr s = s := by
  induction s with
  | nil => exact removeBr_nil
  | cons c cs ih =>
    rw [removeBr_cons_not cs (keep_ne_bracket (h c (by simp)))]
    rw [ih (fun d hd => h d (by simp [hd]))]

theorem classSub_keep {s : Str} (h : ∀ c ∈ s, keepClass c = true) :
    classSub s = s := by
  induction s with
  | nil => rfl
  | cons c cs ih =>
    simp only [classSub, List.map_cons]
    rw [if_pos (h c (by simp))]
    have := ih (fun d hd => h d (by simp [hd]))
    simp only [classSub] at this
    rw [this]

theorem collapseWs_collapseWs (s : Str) : collapseWs (collapseWs s) = collapseWs s := by
  unfold collapseWs
  rw [wsSplit_joinTokens (wsSplit s) (fun t ht => ⟨(wsSplit_tokens ht).1,
    fun c hc => ((wsSplit_tokens ht).2 c hc).1⟩)]

theorem mem_normalize_keep {s : Str} {c : Char} (h : c ∈ normalize_name s) :
    keepClass c = true := by
  rcases mem_collapseWs h with h2 | h2
  · rw [h2]; exact keepClass_space
  · exact mem_classSub h2

/-! ### The two normaliser claims -/

theorem normalize_name_idem (s : Str) :
    normalize_name (normalize_name s) = normalize_name s := by
  have hkeep : ∀ c ∈ normalize_name s, keepClass c = true :=
    fun c hc => mem_normalize_keep hc
  have step : ∀ y : Str, (∀ c ∈ y, keepClass c = true) → normalize_name y = collapseWs y := by
    intro y hy
    unfold normalize_name
    rw [map_pyLower_keep hy, removeBr_keep hy, classSub_keep hy]
  rw [step _ hkeep]
  show collapseWs (collapseWs (classSub (removeBr (s.map pyLower)))) = _
  exact collapseWs_collapseWs _

/-- Combined alphabet / shape invariant of normalised names, stated as
one boolean check. -/
def normalFormB (s : Str) : Bool :=
  s.all allowedOut && noDoubleSpace s && headNotSpace s && lastNotSpace s

theorem normalize_normalForm (s : Str) : normalFormB (normalize_name s) = true := by
  have htok : ∀ t ∈ wsSplit (classSub (removeBr (s.map pyLower))),
      t ≠ [] ∧ ∀ c ∈ t, notWs c = true ∧ c ∈ classSub (removeBr (s.map pyLower)) :=
    fun t ht => wsSplit_tokens ht
  have hgood : ∀ t ∈ wsSplit (classSub (removeBr (s.map pyLower))),
      t ≠ [] ∧ ∀ c ∈ t, ¬ c = ' ' :=
    fun t ht => ⟨(htok t ht).1, fun c hc => notWs_ne_space ((htok t ht).2 c hc).1⟩
  rcases joinTokens_shape _ hgood with ⟨h1, h2, h3⟩
  have hall : (normalize_name s).all allowedOut = true := by
    rw [List.all_eq_true]
    intro c hc
    rcases mem_joinTokens _ c hc with hc2 | ⟨t, ht, hct⟩
    · subst hc2; decide
    · exact keep_notWs_allowed (mem_classSub ((htok t ht).2 c hct).2) ((htok t ht).2 c hct).1
  unfold normalFormB
  rw [hall]
  unfold normalize_name collapseWs
  rw [h1, h2, h3]
  rfl

/-- C6.  The name normaliser is idempotent, and null/NaN input yields
the empty string. -/
theorem claim_C6_normalize_idempotent :
    (∀ s : Str, normalize_name (normalize_name s) = normalize_name s) ∧
      normalize_name_opt none = [] :=
  ⟨normalize_name_idem, rfl⟩

/-- C10.  Every output of the name normaliser consists only of
lowercase ASCII letters, digits, spaces, hyphens and plus signs, with
no leading or trailing whitespace and no two consecutive spaces. -/
theorem claim_C10_normalize_alphabet (s : Str) :
    ((normalize_name s).all allowedOut && noDoubleSpace (normalize_name s) &&
      headNotSpace (normalize_name s) && lastNotSpace (normalize_name s)) = true :=
  normalize_normalForm s

/-! ### Canonical pair key (claim C7)

`build_ddi_reference` line 314 and `build_patient_ddi_collapsed` lines
434-435 compute `tuple(sorted([drug1_norm, drug2_norm]))`.  Python's
`sorted` on two strings keeps the pair when the second is not smaller
and swaps it otherwise; string comparison is code-point lexicographic,
which is the lexicographic order on `List Char`. -/

/-- The canonical, order-independent pair key: sorted 2-tuple of the
normalised names. -/
def pair_key (a b : Str) : Str × Str :=
  let x := normalize_name a
  let y := normalize_name b
  if y < x then (y, x) else (x, y)

/-- C7.  The canonical pair key is symmetric in its two arguments. -/
theorem claim_C7_pair_key_symm (a b : Str) : pair_key a b = pair_key b a := by
  unfold pair_key
  rcases lt_trichotomy (normalize_name a) (normalize_name b) with h | h | h
  · rw [if_neg (asymm h), if_pos h]
  · rw [h]
  · rw [if_pos h, if_neg (asymm h)]

/-! ### Unified severity resolution (claim C1)

In `build_ddi_reference`, `choose_severity` is applied to the grouped
rows, whose `micromedex_sev_level` and `ddinter_level` cells are the
(always list-valued) outputs of the `uniq_list` aggregation, so only
the `isinstance(val, list)` branch of the Python function is live: an
empty list falls through to the next column, a non-empty list returns
its first value, mapped to NaN when it equals "unknown"
case-insensitively. -/

/-- The case-insensitive `"Unknown"` sentinel test
(`str(v).lower() == "unknown"`). -/
def sentinel_unknown (v : Str) : Bool := v.map pyLower = "unknown".toList

/-- `choose_severity` from `pipeline.py` lines 357-366, on the grouped
(list-valued) severity cells: Micromedex first, then DDInter. -/
def choose_severity (mm dd : List Str) : Option Str :=
  match mm with
  | v :: _ => if sentinel_unknown v then none else some v
  | [] =>
    match dd with
    | v :: _ => if sentinel_unknown v then none else some v
    | [] => none

/-- Severity resolution as the claim words it: take the first
Micromedex value if the list is non-empty AND that value is not the
sentinel; OTHERWISE (including when the first Micromedex value is the
sentinel) fall back to the DDInter list under the same rule; null if
neither yields a value. -/
def choose_severity_claim (mm dd : List Str) : Option Str :=
  let fromDD : Option Str :=
    match dd with
    | v :: _ => if sentinel_unknown v then none else some v
    | [] => none
  match mm with
  | v :: _ => if sentinel_unknown v then fromDD else some v
  | [] => fromDD

/-- C1 counterexample: with Micromedex list `["Unknown"]` and DDInter
list `["Major"]` the code returns null where the claim's resolution
order would fall back to "Major". -/
theorem claim_C1_counterexample :
    choose_severity ["Unknown".toList] ["Major".toList] = none ∧
      choose_severity_claim ["Unknown".toList] ["Major".toList] = some "Major".toList ∧
      choose_severity ["Unknown".toList] ["Major".toList] ≠
        choose_severity_claim ["Unknown".toList] ["Major".toList] := by
  refine ⟨by decide, by decide, by decide⟩

/-- Severity resolution as the code actually behaves: the first value
of the higher-priority (Micromedex) list wins whenever that list is
non-empty, with the sentinel mapped to null WITHOUT falling back; only
an empty Micromedex list defers to the DDInter list under the same
rule; null when both lists are empty. -/
def choose_severity_amended (mm dd : List Str) : Option Str :=
  if h : mm.isEmpty then
    if h2 : dd.isEmpty then none
    else if sentinel_unknown (dd.head (by simpa [List.isEmpty_iff] using h2)) then none
    else some (dd.head (by simpa [List.isEmpty_iff] using h2))
  else
    if sentinel_unknown (mm.head (by simpa [List.isEmpty_iff] using h)) then none
    else some (mm.head (by simpa [List.isEmpty_iff] using h))

/-- C1 (amended).  The unified severity equals the amended resolution
policy for every pair of aggregated severity lists. -/
theorem claim_C1_amended (mm dd : List Str) :
    choose_severity mm dd = choose_severity_amended mm dd := by
  cases mm with
  | nil =>
    cases dd with
    | nil => rfl
    | cons v vs =>
      simp [choose_severity, choose_severity_amended]
  | cons v vs =>
    simp [choose_severity, choose_severity_amended]

/-! ### Source coverage and confidence of the unified DDI reference
(claim C5), `build_ddi_reference` lines 317-354 -/

/-- Python `str.strip()` on the ASCII whitespace range. -/
def stripStr (s : Str) : Str :=
  ((s.dropWhile pyIsSpace).reverse.dropWhile pyIsSpace).reverse

/-- The `str(x).strip() != ""` test of `uniq_list`. -/
def nonBlank (v : Str) : Bool := !(stripStr v).isEmpty

/-- First-seen-order deduplication (the `seen` set loop of
`uniq_list`). -/
def dedupFS : List Str → List Str
  | [] => []
  | v :: vs => v :: dedupFS (vs.filter (fun w => ¬ w = v))
termination_by l => l.length
decreasing_by
  have := List.length_filter_le (fun w => ¬ w = v) vs
  simp at this ⊢
  omega

/-- `uniq_list` from `build_ddi_reference`: drop nulls and blank
strings, then deduplicate preserving first-seen order.  The grouped
cells are scalar strings, so the nested-list flattening branch is not
exercised. -/
def uniq_list (col : List (Option Str)) : List Str :=
  dedupFS ((col.filterMap id).filter nonBlank)

/-- A row of the outer-merged DDI tables before grouping. -/
structure MergedRow where
  drug1_name : Option Str
  drug2_name : Option Str
  ddinter_level : Option Str
  micromedex_sev_level : Option Str
  micromedex_evid_level : Option Str
  interaction_type_crescenddi : Option Str
  interaction_type_mendeley : Option Str

/-- The three integrated DDI sources. -/
inductive DdiSource
  | DDInter
  | Micromedex
  | Mendeley
deriving DecidableEq, Repr

/-- `has_ddinter`: the aggregated `ddinter_level` list of the group is
non-empty. -/
def has_ddinter (g : List MergedRow) : Bool :=
  !(uniq_list (g.map (fun r => r.ddinter_level))).isEmpty

/-- `has_micromedex`: the aggregated `micromedex_sev_level` list of
the group is non-empty. -/
def has_micromedex (g : List MergedRow) : Bool :=
  !(uniq_list (g.map (fun r => r.micromedex_sev_level))).isEmpty

/-- `has_mendeley`: the aggregated `interaction_type_mendeley` list of
the group is non-empty. -/
def has_mendeley (g : List MergedRow) : Bool :=
  !(uniq_list (g.map (fun r => r.interaction_type_mendeley))).isEmpty

/-- `sources_present`, in the fixed DDInter, Micromedex, Mendeley
order of the code. -/
def sources_present (g : List MergedRow) : List DdiSource :=
  (if has_ddinter g then [DdiSource.DDInter] else []) ++
    (if has_micromedex g then [DdiSource.Micromedex] else []) ++
    (if has_mendeley g then [DdiSource.Mendeley] else [])

/-- `src_count`. -/
def src_count (g : List MergedRow) : Nat := (sources_present g).length

/-- `ddi_confidence = src_count / 3.0`. -/
def ddi_confidence (g : List MergedRow) : ℚ := (src_count g : ℚ) / 3

theorem dedupFS_eq_nil_iff (l : List Str) : dedupFS l = [] ↔ l = [] := by
  cases l with
  | nil => rw [dedupFS.eq_def]
  | cons v vs =>
    rw [dedupFS.eq_def]
    simp

theorem uniq_list_nonempty_iff (col : List (Option Str)) :
    (uniq_list col).isEmpty = false ↔ ∃ v, some v ∈ col ∧ nonBlank v = true := by
  rw [List.isEmpty_eq_false, Ne, uniq_list, dedupFS_eq_nil_iff]
  rw [← Ne]
  constructor
  · intro hne
    rcases List.exists_mem_of_ne_nil _ hne with ⟨v, hv⟩
    rw [List.mem_filter] at hv
    rcases hv with ⟨hv1, hv2⟩
    rcases List.mem_filterMap.mp hv1 with ⟨a, ha, hae⟩
    cases a with
    | none => simp at hae
    | some w =>
      simp at hae
      subst hae
      exact ⟨w, ha, hv2⟩
  · rintro ⟨v, hv, hnb⟩
    exact List.ne_nil_of_mem (List.mem_filter.mpr ⟨List.mem_filterMap.mpr ⟨some v, hv, rfl⟩, hnb⟩)

theorem mem_ite_single {α : Type} [DecidableEq α] (b : Bool) (x a : α) :
    (a ∈ if b then [x] else []) ↔ b = true ∧ a = x := by
  cases b <;> simp

/-- C5.  `sources_present` is exactly the set of sources with at least
one non-null, non-blank contribution to the pair's aggregated severity
or interaction-type column, and `ddi_confidence` equals
`|sources_present| / 3`, hence lies in `{0, 1/3, 2/3, 1}`. -/
theorem claim_C5_sources_confidence (g : List MergedRow) :
    (DdiSource.DDInter ∈ sources_present g ↔
      ∃ r ∈ g, ∃ v, r.ddinter_level = some v ∧ nonBlank v = true) ∧
    (DdiSource.Micromedex ∈ sources_present g ↔
      ∃ r ∈ g, ∃ v, r.micromedex_sev_level = some v ∧ nonBlank v = true) ∧
    (DdiSource.Mendeley ∈ sources_present g ↔
      ∃ r ∈ g, ∃ v, r.interaction_type_mendeley = some v ∧ nonBlank v = true) ∧
    ddi_confidence g = (src_count g : ℚ) / 3 ∧
    (ddi_confidence g = 0 ∨ ddi_confidence g = 1/3 ∨ ddi_confidence g = 2/3 ∨
      ddi_confidence g = 1) := by
  have hmem : ∀ (f : MergedRow → Option Str),
      ((uniq_list (g.map f)).isEmpty = false ↔
        ∃ r ∈ g, ∃ v, f r = some v ∧ nonBlank v = true) := by
    intro f
    rw [uniq_list_nonempty_iff]
    constructor
    · rintro ⟨v, hv, hnb⟩
      rcases List.mem_map.mp hv with ⟨r, hr, hre⟩
      exact ⟨r, hr, v, hre, hnb⟩
    · rintro ⟨r, hr, v, hre, hnb⟩
      exact ⟨v, List.mem_map.mpr ⟨r, hr, hre⟩, hnb⟩
  refine ⟨?_, ?_, ?_, rfl, ?_⟩
  · rw [← hmem]
    simp only [sources_present, List.mem_append, mem_ite_single]
    unfold has_ddinter
    constructor
    · rintro ((⟨h1, _⟩ | ⟨_, h2⟩) | ⟨_, h3⟩)
      · simpa using h1
      · cases h2
      · cases h3
    · intro h
      exact Or.inl (Or.inl ⟨by simpa using h, trivial⟩)
  · rw [← hmem]
    simp only [sources_present, List.mem_append, mem_ite_single]
    unfold has_micromedex
    constructor
    · rintro ((⟨_, h1⟩ | ⟨h2, _⟩) | ⟨_, h3⟩)
      · cases h1
      · simpa using h2
      · cases h3
    · intro h
      exact Or.inl (Or.inr ⟨by simpa using h, trivial⟩)
  · rw [← hmem]
    simp only [sources_present, List.mem_append, mem_ite_single]
    unfold has_mendeley
    constructor
    · rintro ((⟨_, h1⟩ | ⟨_, h2⟩) | ⟨h3, _⟩)
      · cases h1
      · cases h2
      · simpa using h3
    · intro h
      exact Or.inr ⟨by simpa using h, trivial⟩
  · unfold ddi_confidence src_count sources_present
    by_cases h1 : has_ddinter g <;> by_cases h2 : has_micromedex g <;>
      by_cases h3 : has_mendeley g <;>
      simp [h1, h2, h3]

/-! ### Co-exposure detection (claims C3 and C9),
`build_patient_ddi_collapsed` lines 392-429

Timestamps are nanoseconds since the epoch (`Int`), `none` for a
missing value (`NaT`).  `pd.Timestamp.max` is 2^63 - 1 nanoseconds;
every representable pandas timestamp is ≤ `tmax`. -/

/-- `pd.Timestamp.max.tz_localize("UTC")` in nanoseconds. -/
def tmax : Int := 9223372036854775807

/-- The `overlaps` helper: false when either start is missing;
otherwise missing stops are clamped to `tmax` and the intervals
overlap iff `a0 ≤ b1 ∧ b0 ≤ a1`. -/
def overlaps (a0 a1 b0 b1 : Option Int) : Bool :=
  match a0, b0 with
  | some x, some y => decide (x ≤ b1.getD tmax) && decide (y ≤ a1.getD tmax)
  | _, _ => false

/-- One deduplicated exposure row drawn from the Top-K table. -/
structure Exposure where
  patient_uuid : Str
  drug_name : Str
  drug_norm : Str
  start : Option Int
  stop : Option Int
deriving DecidableEq, Repr

/-- One output row of the pair loop (the fields built from the two
exposures; the demographic snapshot columns are independent of the
overlap logic and omitted). -/
structure CoRow where
  patient_uuid : Str
  drug1 : Str
  drug2 : Str
  drug1_norm : Str
  drug2_norm : Str
  overlap_start : Int
  overlap_stop : Int
deriving DecidableEq, Repr

/-- Row constructed for an overlapping pair: `overlap_start` is the
later of the two starts (both present whenever `overlaps` held),
`overlap_stop` the earlier of the two stops with missing stops clamped
to `tmax`. -/
def mkCoRow (r1 r2 : Exposure) : CoRow :=
  { patient_uuid := r1.patient_uuid
    drug1 := r1.drug_name
    drug2 := r2.drug_name
    drug1_norm := r1.drug_norm
    drug2_norm := r2.drug_norm
    overlap_start := max (r1.start.getD 0) (r2.start.getD 0)
    overlap_stop := min (r1.stop.getD tmax) (r2.stop.getD tmax) }

/-- The guard of the pair loop: same patient (the loop runs per
patient group), distinct normalised drugs, and temporal overlap. -/
def coexpGuard (r1 r2 : Exposure) : Bool :=
  r1.patient_uuid = r2.patient_uuid && !(r1.drug_norm = r2.drug_norm) &&
    overlaps r1.start r1.stop r2.start r2.stop

/-- Pair `e` with every later exposure of the list, keeping the pairs
that pass the guard. -/
def pairWith (e : Exposure) : List Exposure → List CoRow
  | [] => []
  | f :: fs => if coexpGuard e f then mkCoRow e f :: pairWith e fs else pairWith e fs

/-- All unordered pairs (in `itertools.combinations` order) of
exposures that pass the guard, i.e. the co-exposure rows. -/
def pairRows : List Exposure → List CoRow
  | [] => []
  | e :: es => pairWith e es ++ pairRows es

/-- C3.  For exposures with present starts (which every pandas
timestamp has bounded by `tmax`), the overlap test succeeds iff
`a0 ≤ b1` and `b0 ≤ a1` with a missing stop treated as positive
infinity, and the row built for an overlapping pair carries
`overlap_start = max` of the starts and `overlap_stop = min` of the
stops clamped to the maximal sentinel. -/
theorem claim_C3_overlap_window (e1 e2 : Exposure) (x y : Int)
    (h1 : e1.start = some x) (h2 : e2.start = some y)
    (hx : x ≤ tmax) (hy : y ≤ tmax) :
    (overlaps e1.start e1.stop e2.start e2.stop = true ↔
      ((∀ t, e2.stop = some t → x ≤ t) ∧ (∀ t, e1.stop = some t → y ≤ t))) ∧
    (overlaps e1.start e1.stop e2.start e2.stop = true →
      (mkCoRow e1 e2).overlap_start = max x y ∧
        (mkCoRow e1 e2).overlap_stop = min (e1.stop.getD tmax) (e2.stop.getD tmax)) := by
  constructor
  · rw [h1, h2]
    unfold overlaps
    simp only [Bool.and_eq_true, decide_eq_true_eq]
    constructor
    · rintro ⟨ha, hb⟩
      constructor
      · intro t ht
        rw [ht] at ha
        simpa using ha
      · intro t ht
        rw [ht] at hb
        simpa using hb
    · rintro ⟨ha, hb⟩
      constructor
      · cases ht : e2.stop with
        | none => simpa using hx
        | some t => simpa using ha t ht
      · cases ht : e1.stop with
        | none => simpa using hy
        | some t => simpa using hb t ht
  · intro _
    unfold mkCoRow
    rw [h1, h2]
    exact ⟨rfl, rfl⟩

/-- C3 witness: the spec's own example, as epoch-day counts: exposure
A = [1, 10] and B = [5, 20] overlap with window [5, 10]. -/
theorem claim_C3_witness :
    (overlaps (some 1) (some 10) (some 5) (some 20) = true ↔
      ((∀ t, (some 20 : Option Int) = some t → (1 : Int) ≤ t) ∧
        (∀ t, (some 10 : Option Int) = some t → (5 : Int) ≤ t))) ∧
      (overlaps (some 1) (some 10) (some 5) (some 20) = true →
        (mkCoRow ⟨[], [], [], some 1, some 10⟩ ⟨[], [], [], some 5, some 20⟩).overlap_start =
            max 1 5 ∧
          (mkCoRow ⟨[], [], [], some 1, some 10⟩ ⟨[], [], [], some 5, some 20⟩).overlap_stop =
            min ((some (10 : Int)).getD tmax) ((some (20 : Int)).getD tmax)) :=
  claim_C3_overlap_window ⟨[], [], [], some 1, some 10⟩ ⟨[], [], [], some 5, some 20⟩
    1 5 rfl rfl (by decide) (by decide)

/-- Every emitted co-exposure row comes from two exposures of the
input that passed the guard. -/
theorem pairWith_sound (e : Exposure) :
    ∀ (fs : List Exposure) (row : CoRow), row ∈ pairWith e fs →
      ∃ f ∈ fs, coexpGuard e f = true ∧ row = mkCoRow e f := by
  intro fs
  induction fs with
  | nil => intro row h; simp [pairWith] at h
  | cons f fs ih =>
    intro row h
    rw [pairWith] at h
    by_cases hg : coexpGuard e f
    · rw [if_pos hg] at h
      rcases List.mem_cons.mp h with h2 | h2
      · exact ⟨f, by simp, hg, h2⟩
      · rcases ih row h2 with ⟨f2, hf2, hg2, he2⟩
        exact ⟨f2, by simp [hf2], hg2, he2⟩
    · rw [if_neg hg] at h
      rcases ih row h with ⟨f2, hf2, hg2, he2⟩
      exact ⟨f2, by simp [hf2], hg2, he2⟩

theorem pairRows_sound :
    ∀ (exps : List Exposure) (row : CoRow), row ∈ pairRows exps →
      ∃ e1 ∈ exps, ∃ e2 ∈ exps, coexpGuard e1 e2 = true ∧ row = mkCoRow e1 e2 := by
  intro exps
  induction exps with
  | nil => intro row h; simp [pairRows] at h
  | cons e es ih =>
    intro row h
    rw [pairRows] at h
    rcases List.mem_append.mp h with h2 | h2
    · rcases pairWith_sound e es row h2 with ⟨f, hf, hg, he⟩
      exact ⟨e, by simp, f, by simp [hf], hg, he⟩
    · rcases ih row h2 with ⟨e1, he1, e2, he2, hg, he⟩
      exact ⟨e1, by simp [he1], e2, by simp [he2], hg, he⟩

/-- A passing guard forces both start timestamps to be present. -/
theorem overlaps_starts_present {a0 a1 b0 b1 : Option Int}
    (h : overlaps a0 a1 b0 b1 = true) :
    (∃ x, a0 = some x) ∧ ∃ y, b0 = some y := by
  cases a0 with
  | none => simp [overlaps] at h
  | some x =>
    cases b0 with
    | none => simp [overlaps] at h
    | some y => exact ⟨⟨x, rfl⟩, ⟨y, rfl⟩⟩

/-- C9.  A missing start timestamp makes the overlap test false — even
with a present stop or an open-ended other exposure — so an exposure
with a missing start never contributes a co-exposure row: every row of
`pairRows` originates from two guard-passing exposures whose starts
are both present. -/
theorem claim_C9_missing_start (a1 b0 b1 a0 : Option Int) (exps : List Exposure)
    (row : CoRow) :
    overlaps none a1 b0 b1 = false ∧
    overlaps a0 a1 none b1 = false ∧
    (row ∈ pairRows exps →
      ∃ e1 ∈ exps, ∃ e2 ∈ exps, (∃ x, e1.start = some x) ∧ (∃ y, e2.start = some y) ∧
        row = mkCoRow e1 e2) := by
  refine ⟨rfl, ?_, ?_⟩
  · cases a0 <;> rfl
  · intro h
    rcases pairRows_sound exps row h with ⟨e1, he1, e2, he2, hg, he⟩
    have hs := overlaps_starts_present (by
      have := hg
      unfold coexpGuard at this
      simp only [Bool.and_eq_true] at this
      exact this.2)
    exact ⟨e1, he1, e2, he2, hs.1, hs.2, he⟩

/-- C9 witness: an exposure with a missing start and present stop does
not overlap an open-ended exposure, in either order. -/
theorem claim_C9_witness :
    overlaps none (some 10) (some 0) none = false ∧
      overlaps (some 0) none none (some 10) = false := by
  have h := claim_C9_missing_start (some 10) (some 0) none (some 0) []
    ⟨[], [], [], [], [], 0, 0⟩
  have h2 := claim_C9_missing_start none (some 0) (some 10) (some 0) []
    ⟨[], [], [], [], [], 0, 0⟩
  exact ⟨h.1, h2.2.1⟩

/-! ### Online ingredient resolution (claim C8),
`map_product_to_ingredient` lines 175-196

The network call is external; its per-identifier outcome is modelled
by an oracle returning either an ingredient identifier or one of the
failure modes that `get_ing` turns into `None` (request timeout,
non-success HTTP status, malformed JSON, or no `IN` concept group in
the response). -/

/-- Failure modes of one RxNav lookup. -/
inductive RxnavErr
  | timeout
  | badStatus
  | malformed
  | noIngredient
deriving DecidableEq, Repr

/-- `get_ing`: best-effort per-identifier lookup; every failure mode
is caught (the `try`/`except` and the early `return None`s) and gives
`none` instead of propagating. -/
def get_ing (fetch : Int → Except RxnavErr Int) (rxcui : Int) : Option Int :=
  match fetch rxcui with
  | .ok v => some v
  | .error _ => none

/-- The online branch of `map_product_to_ingredient`: one mapping
entry `{"rxcui": r, "ingredient_rxcui": get_ing(r)}` per identifier of
the (distinct) batch, in order. -/
def resolve_online (fetch : Int → Except RxnavErr Int) (rxcuis : List Int) :
    List (Int × Option Int) :=
  rxcuis.map (fun r => (r, get_ing fetch r))

/-- C8.  Per-item fault isolation of the online resolver: a failing
lookup yields a missing ingredient for that identifier only; every
identifier of the batch still gets exactly one entry, successes are
preserved, and distinctness of the batch carries over to the mapping
keys. -/
theorem claim_C8_fault_isolation (fetch : Int → Except RxnavErr Int)
    (rxcuis : List Int) :
    ((resolve_online fetch rxcuis).map Prod.fst = rxcuis) ∧
    ((resolve_online fetch rxcuis).length = rxcuis.length) ∧
    (∀ r ∈ rxcuis, (r, get_ing fetch r) ∈ resolve_online fetch rxcuis) ∧
    (∀ r e, fetch r = .error e → get_ing fetch r = none) ∧
    (∀ r v, fetch r = .ok v → get_ing fetch r = some v) ∧
    (rxcuis.Nodup → ((resolve_online fetch rxcuis).map Prod.fst).Nodup) := by
  refine ⟨?_, ?_, ?_, ?_, ?_, ?_⟩
  · simp [resolve_online, Function.comp_def]
  · simp [resolve_online]
  · intro r hr
    exact List.mem_map.mpr ⟨r, hr, rfl⟩
  · intro r e he
    simp [get_ing, he]
  · intro r v hv
    simp [get_ing, hv]
  · intro hnd
    simpa [resolve_online, Function.comp_def] using hnd

/-- C8 witness: a batch of three identifiers in which the middle
lookup times out still resolves the other two and produces one entry
per identifier. -/
theorem claim_C8_witness :
    ((resolve_online
        (fun r => if r = 2 then .error .timeout else .ok (r + 100)) [1, 2, 3]).map
        Prod.fst = [1, 2, 3]) ∧
      ((2 : Int),
        get_ing (fun r => if r = 2 then .error .timeout else .ok (r + 100)) 2) ∈
        resolve_online (fun r => if r = 2 then .error .timeout else .ok (r + 100)) [1, 2, 3] ∧
      get_ing (fun r => if r = 2 then .error .timeout else .ok (r + 100)) 2 = none ∧
      get_ing (fun r => if r = 2 then .error .timeout else .ok (r + 100)) 1 = some 101 := by
  have h := claim_C8_fault_isolation
    (fun r => if r = 2 then .error .timeout else .ok (r + 100)) [1, 2, 3]
  exact ⟨h.1, h.2.2.1 2 (by decide), h.2.2.2.1 2 .timeout rfl,
    h.2.2.2.2.1 1 101 rfl⟩

/-! ### A stable sort

`DataFrame.sort_values` on several columns performs `np.lexsort`, an
indirect STABLE sort by the column tuple.  Insertion sort with a
non-strict comparison is stable and sorts by the same order, so it
models these sorts. -/

/-- Insert `a` before the first element it compares `le` to. -/
def insL {α : Type} (le : α → α → Bool) (a : α) : List α → List α
  | [] => [a]
  | b :: l => if le a b then a :: b :: l else b :: insL le a l

/-- Stable insertion sort by the boolean comparison `le`. -/
def isortBy {α : Type} (le : α → α → Bool) : List α → List α
  | [] => []
  | a :: l => insL le a (isortBy le l)

theorem mem_insL {α : Type} {le : α → α → Bool} {a x : α} :
    ∀ {l : List α}, x ∈ insL le a l ↔ x = a ∨ x ∈ l := by
  intro l
  induction l with
  | nil => simp [insL]
  | cons b l ih =>
    simp only [insL]
    by_cases hab : le a b
    · rw [if_pos hab]
      simp
    · rw [if_neg hab]
      simp only [List.mem_cons, ih]
      tauto

theorem mem_isortBy {α : Type} {le : α → α → Bool} {x : α} :
    ∀ {l : List α}, x ∈ isortBy le l ↔ x ∈ l := by
  intro l
  induction l with
  | nil => simp [isortBy]
  | cons a l ih =>
    simp only [isortBy, mem_insL, ih, List.mem_cons]

theorem pairwise_insL {α : Type} {le : α → α → Bool}
    (htot : ∀ a b, le a b = true ∨ le b a = true)
    (htr : ∀ a b c, le a b = true → le b c = true → le a c = true) (a : α) :
    ∀ {l : List α}, l.Pairwise (fun x y => le x y = true) →
      (insL le a l).Pairwise (fun x y => le x y = true) := by
  intro l
  induction l with
  | nil =>
    intro _
    simp [insL]
  | cons b l ih =>
    intro hp
    rcases List.pairwise_cons.mp hp with ⟨hb, hl⟩
    simp only [insL]
    by_cases hab : le a b
    · rw [if_pos hab]
      refine List.pairwise_cons.mpr ⟨?_, hp⟩
      intro x hx
      rcases List.mem_cons.mp hx with hx | hx
      · rw [hx]; exact hab
      · exact htr a b x hab (hb x hx)
    · rw [if_neg hab]
      have hba : le b a = true := (htot a b).resolve_left hab
      refine List.pairwise_cons.mpr ⟨?_, ih hl⟩
      intro x hx
      rcases mem_insL.mp hx with hx | hx
      · rw [hx]; exact hba
      · exact hb x hx

theorem pairwise_isortBy {α : Type} {le : α → α → Bool}
    (htot : ∀ a b, le a b = true ∨ le b a = true)
    (htr : ∀ a b c, le a b = true → le b c = true → le a c = true) :
    ∀ l : List α, (isortBy le l).Pairwise (fun x y => le x y = true) := by
  intro l
  induction l with
  | nil => simp [isortBy]
  | cons a l ih => exact pairwise_insL htot htr a ih

/-! ### AEOLUS lookup builder (claim C4),
`build_aeolus_lookup` lines 142-152

A joined statistics row after the two concept merges.  `Option` models
NaN; `query("case_count >= 20 and ror >= 2.0")` drops NaN because NaN
comparisons are false, and `.dropna(subset=["rxcui"])` drops rows
without a resolvable RxNorm code. -/

/-- A row of `stats_full` (the statistics joined to the RxNorm and
MedDRA dictionaries). -/
structure StatRow where
  rxcui : Option Int
  drug_name : Str
  outcome_text : Str
  case_count : Option ℚ
  prr : Option ℚ
  ror : Option ℚ
deriving DecidableEq, Repr

/-- `AEO_CASE_MIN`. -/
def AEO_CASE_MIN : ℚ := 20

/-- `AEO_ROR_MIN`. -/
def AEO_ROR_MIN : ℚ := 2

/-- The dropna + significance filter of `build_aeolus_lookup`. -/
def aeoPasses (r : StatRow) : Bool :=
  r.rxcui.isSome &&
    (match r.case_count with
     | some c => decide (AEO_CASE_MIN ≤ c)
     | none => false) &&
    (match r.ror with
     | some q => decide (AEO_ROR_MIN ≤ q)
     | none => false)

/-- Sort key of `sort_values(["rxcui","ror"], ascending=[True,False])`:
`rxcui` ascending, then `ror` descending.  The defaults feed the
`getD` only on rows that failed the filter and were removed. -/
def aeoKey (r : StatRow) : Lex (Int × ℚᵒᵈ) :=
  toLex (r.rxcui.getD 0, OrderDual.toDual (r.ror.getD 0))

/-- Comparison realising the (rxcui asc, ror desc) sort. -/
def leAeo (r1 r2 : StatRow) : Bool := decide (aeoKey r1 ≤ aeoKey r2)

/-- `build_aeolus_lookup` on the joined statistics: filter by the
significance thresholds, then sort by (rxcui asc, ror desc). -/
def build_aeolus_lookup (stats : List StatRow) : List StatRow :=
  isortBy leAeo (stats.filter aeoPasses)

/-- C4.  Every row of the AEOLUS lookup passes the significance filter
(`case_count ≥ 20` and `ror ≥ 2.0`, both present, rxcui resolvable) —
so no row below either threshold appears — and the output is sorted by
(ingredient identifier ascending, ror descending). -/
theorem claim_C4_aeolus_lookup (stats : List StatRow) :
    ((build_aeolus_lookup stats).all aeoPasses = true) ∧
      (build_aeolus_lookup stats).Pairwise (fun r1 r2 => leAeo r1 r2 = true) := by
  constructor
  · rw [List.all_eq_true]
    intro r hr
    have hr2 : r ∈ stats.filter aeoPasses := mem_isortBy.mp hr
    exact (List.mem_filter.mp hr2).2
  · exact pairwise_isortBy
      (fun a b => by
        unfold leAeo
        rcases le_total (aeoKey a) (aeoKey b) with h | h
        · exact Or.inl (by simpa using h)
        · exact Or.inr (by simpa using h))
      (fun a b c hab hbc => by
        unfold leAeo at hab hbc ⊢
        simp only [decide_eq_true_eq] at hab hbc ⊢
        exact le_trans hab hbc)
      _

/-! ### Top-K selector (claim C2),
`build_patient_ae_tables` lines 266-271 and `clean_synthea_drug`
lines 83-86 -/

/-- `clean_synthea_drug`: truncate the description at the first digit,
strip, and collapse whitespace runs. -/
def clean_synthea_drug (desc : Str) : Str :=
  collapseWs (desc.takeWhile (fun c => !(isDigit09 c)))

/-- An enriched AE-risk row; only the columns read by the Top-K
selector are modelled, plus the outcome text standing for the
payload. -/
structure AERow where
  patient_uuid : Str
  synthea_drug_desc : Str
  outcome_text : Str
  ror : ℚ
  case_count : ℚ
deriving DecidableEq, Repr

/-- The `synthea_drug` column added before the Top-K sort. -/
def synthea_drug (r : AERow) : Str := clean_synthea_drug r.synthea_drug_desc

/-- The grouping key `(patient_uuid, synthea_drug)`. -/
def aeKey (r : AERow) : Str × Str := (r.patient_uuid, synthea_drug r)

/-- The ranked part of the sort key: `(ror, case_count)`
lexicographically (used descending). -/
def rankKey (r : AERow) : Lex (ℚ × ℚ) := toLex (r.ror, r.case_count)

/-- Within-group comparison, `(ror desc, case_count desc)`,
non-strict so that insertion sort is stable on ties. -/
def le2 (r1 r2 : AERow) : Bool := decide (rankKey r2 ≤ rankKey r1)

/-- Full sort key of
`sort_values(["patient_uuid","synthea_drug","ror","case_count"],
ascending=[True,True,False,False])`. -/
def fullKey (r : AERow) : Lex (Lex (Str × Str) × (Lex (ℚ × ℚ))ᵒᵈ) :=
  toLex (toLex (aeKey r), OrderDual.toDual (rankKey r))

/-- Full-table comparison. -/
def leFull (r1 r2 : AERow) : Bool := decide (fullKey r1 ≤ fullKey r2)

/-- `TOP_K`. -/
def TOP_K : Nat := 5

/-- `groupby(..., sort=False).head(K)` over an already sorted list:
keep a row iff fewer than `K` rows with its key have been seen. -/
def groupHeadGo (K : Nat) (pre : List AERow) : List AERow → List AERow
  | [] => []
  | r :: rs =>
    if pre.countP (fun x => decide (aeKey x = aeKey r)) < K then
      r :: groupHeadGo K (pre ++ [r]) rs
    else groupHeadGo K (pre ++ [r]) rs

/-- The Top-K selector: stable-sort the enriched table by the full
key, then keep the first `TOP_K` rows of every
(patient, canonical drug) group. -/
def topkSelect (enriched : List AERow) : List AERow :=
  groupHeadGo TOP_K [] (isortBy leFull enriched)

theorem leFull_total (a b : AERow) : leFull a b = true ∨ leFull b a = true := by
  unfold leFull
  rcases le_total (fullKey a) (fullKey b) with h | h
  · exact Or.inl (by simpa using h)
  · exact Or.inr (by simpa using h)

theorem leFull_trans (a b c : AERow) (hab : leFull a b = true)
    (hbc : leFull b c = true) : leFull a c = true := by
  unfold leFull at hab hbc ⊢
  simp only [decide_eq_true_eq] at hab hbc ⊢
  exact le_trans hab hbc

theorem leFull_eq_le2 {r1 r2 : AERow} (h : aeKey r1 = aeKey r2) :
    leFull r1 r2 = le2 r1 r2 := by
  unfold leFull le2 fullKey
  rw [decide_eq_decide]
  rw [Prod.Lex.le_iff]
  constructor
  · rintro (hlt | ⟨_, hle⟩)
    · rw [h] at hlt
      exact absurd hlt (lt_irrefl _)
    · simpa using hle
  · intro hle
    exact Or.inr ⟨by rw [h], by simpa using hle⟩

/-! Filtering a group out of the stable full sort gives the stable
within-group sort. -/

theorem insL_top {α : Type} {le : α → α → Bool} {a : α} :
    ∀ {l : List α}, (∀ c ∈ l, le a c = true) → insL le a l = a :: l := by
  intro l
  cases l with
  | nil => intro _; rfl
  | cons c l =>
    intro h
    simp only [insL]
    rw [if_pos (h c (by simp))]

/-- Sorting an already-sorted list changes nothing: together with
`pairwise_isortBy` this pins `isortBy` down as the stable sort —
elements that compare equal keep their original relative order. -/
theorem isortBy_pairwise_id {α : Type} {le : α → α → Bool} :
    ∀ {l : List α}, l.Pairwise (fun x y => le x y = true) → isortBy le l = l := by
  intro l
  induction l with
  | nil => intro _; rfl
  | cons a l ih =>
    intro hp
    rcases List.pairwise_cons.mp hp with ⟨ha, hl⟩
    simp only [isortBy]
    rw [ih hl, insL_top ha]


theorem filter_insL_neg {α : Type} {p : α → Bool} {le : α → α → Bool} {a : α}
    (hpa : p a = false) :
    ∀ l : List α, (insL le a l).filter p = l.filter p := by
  intro l
  induction l with
  | nil => simp [insL, hpa]
  | cons b l ih =>
    simp only [insL]
    by_cases hab : le a b
    · rw [if_pos hab]
      simp [List.filter_cons, hpa]
    · rw [if_neg hab]
      simp only [List.filter_cons, ih]

theorem filter_insL_pos {k : Str × Str} {a : AERow} (hka : aeKey a = k) :
    ∀ {m : List AERow}, m.Pairwise (fun x y => leFull x y = true) →
      (insL leFull a m).filter (fun r => decide (aeKey r = k)) =
        insL le2 a (m.filter (fun r => decide (aeKey r = k))) := by
  intro m
  induction m with
  | nil =>
    intro _
    simp [insL, List.filter_cons, hka]
  | cons b m ih =>
    intro hp
    rcases List.pairwise_cons.mp hp with ⟨hb, hm⟩
    simp only [insL]
    by_cases hab : leFull a b
    · rw [if_pos hab]
      by_cases hkb : aeKey b = k
      · have hab2 : le2 a b = true := by
          rw [← leFull_eq_le2 (by rw [hka, hkb])]
          exact hab
        rw [List.filter_cons_of_pos (by simp [hka]),
          List.filter_cons_of_pos (by simp [hkb])]
        rw [insL, if_pos hab2]
      · have htop : ∀ c ∈ m.filter (fun r => decide (aeKey r = k)), le2 a c = true := by
          intro c hc
          rcases List.mem_filter.mp hc with ⟨hcm, hck⟩
          simp only [decide_eq_true_eq] at hck
          have h1 : leFull a c = true := leFull_trans a b c hab (hb c hcm)
          rw [leFull_eq_le2 (by rw [hka, hck])] at h1
          exact h1
        rw [List.filter_cons_of_pos (by simp [hka]),
          List.filter_cons_of_neg (by simp [hkb])]
        rw [insL_top htop]
    · rw [if_neg hab]
      by_cases hkb : aeKey b = k
      · have hab2 : le2 a b = false := by
          rw [← leFull_eq_le2 (by rw [hka, hkb])]
          simpa using hab
        rw [List.filter_cons_of_pos (by simp [hkb]),
          List.filter_cons_of_pos (by simp [hkb])]
        rw [ih hm, insL, if_neg (by simp [hab2])]
      · rw [List.filter_cons_of_neg (by simp [hkb]),
          List.filter_cons_of_neg (by simp [hkb])]
        exact ih hm

theorem filter_isort_full (k : Str × Str) :
    ∀ l : List AERow,
      (isortBy leFull l).filter (fun r => decide (aeKey r = k)) =
        isortBy le2 (l.filter (fun r => decide (aeKey r = k))) := by
  intro l
  induction l with
  | nil => rfl
  | cons a l ih =>
    simp only [isortBy]
    by_cases hka : aeKey a = k
    · rw [filter_insL_pos hka (pairwise_isortBy leFull_total leFull_trans l)]
      rw [ih]
      rw [List.filter_cons_of_pos (by simp [hka])]
      rfl
    · rw [filter_insL_neg (by simp [hka]) _]
      rw [ih]
      rw [List.filter_cons_of_neg (by simp [hka])]

theorem groupHead_filter (K : Nat) (k : Str × Str) :
    ∀ (l pre : List AERow),
      (groupHeadGo K pre l).filter (fun r => decide (aeKey r = k)) =
        (l.filter (fun r => decide (aeKey r = k))).take
          (K - pre.countP (fun x => decide (aeKey x = k))) := by
  intro l
  induction l with
  | nil => intro pre; simp [groupHeadGo]
  | cons r rs ih =>
    intro pre
    simp only [groupHeadGo]
    by_cases hkr : aeKey r = k
    · have hpred : (fun x => decide (aeKey x = aeKey r)) = (fun x => decide (aeKey x = k)) := by
        funext x
        rw [hkr]
      rw [hpred]
      have hcount : (pre ++ [r]).countP (fun x => decide (aeKey x = k)) =
          pre.countP (fun x => decide (aeKey x = k)) + 1 := by
        rw [List.countP_append]
        simp [List.countP_cons, hkr]
      by_cases hlt : pre.countP (fun x => decide (aeKey x = k)) < K
      · rw [if_pos hlt]
        rw [List.filter_cons_of_pos (by simp [hkr]),
          List.filter_cons_of_pos (by simp [hkr])]
        rw [ih (pre ++ [r]), hcount]
        have heq : K - pre.countP (fun x => decide (aeKey x = k)) =
            (K - (pre.countP (fun x => decide (aeKey x = k)) + 1)) + 1 := by omega
        rw [heq]
        rfl
      · rw [if_neg hlt]
        rw [ih (pre ++ [r]), hcount]
        rw [List.filter_cons_of_pos (by simp [hkr])]
        have h1 : K - (pre.countP (fun x => decide (aeKey x = k)) + 1) = 0 := by omega
        have h2 : K - pre.countP (fun x => decide (aeKey x = k)) = 0 := by omega
        rw [h1, h2]
        simp
    · have hcount : (pre ++ [r]).countP (fun x => decide (aeKey x = k)) =
          pre.countP (fun x => decide (aeKey x = k)) := by
        rw [List.countP_append]
        simp [List.countP_cons, hkr]
      by_cases hlt : pre.countP (fun x => decide (aeKey x = aeKey r)) < K
      · rw [if_pos hlt]
        rw [List.filter_cons_of_neg (by simp [hkr])]
        rw [ih (pre ++ [r]), hcount]
        rw [List.filter_cons_of_neg (by simp [hkr])]
      · rw [if_neg hlt]
        rw [ih (pre ++ [r]), hcount]
        rw [List.filter_cons_of_neg (by simp [hkr])]

/-- C2.  For every (patient, canonical drug) group, the Top-K output
restricted to that group is exactly the first `TOP_K = 5` rows of the
group's candidates after a stable sort by (ror descending,
case_count descending) — stability meaning enriched-table order breaks
ties — and in particular it has at most 5 rows. -/
theorem claim_C2_topk (rows : List AERow) (k : Str × Str) :
    (topkSelect rows).filter (fun r => decide (aeKey r = k)) =
      (isortBy le2 (rows.filter (fun r => decide (aeKey r = k)))).take TOP_K ∧
    ((topkSelect rows).filter (fun r => decide (aeKey r = k))).length ≤ TOP_K := by
  have h1 : (topkSelect rows).filter (fun r => decide (aeKey r = k)) =
      (isortBy le2 (rows.filter (fun r => decide (aeKey r = k)))).take TOP_K := by
    unfold topkSelect
    rw [groupHead_filter TOP_K k _ []]
    simp only [List.countP_nil, Nat.sub_zero]
    rw [filter_isort_full]
  refine ⟨h1, ?_⟩
  rw [h1]
  exact le_trans (List.length_take_le _ _) (le_refl _)

end AIDoctors
